import Mathlib

/-!
Verification of the binary-heap priority queue in `BinHeapPQ.cpp`
(repository MParolari/priority_queue) against its design document.

The C++ class `BinHeapPQ<T>` keeps an array `heap` of pointers to
`PriorityItem<T>` records `{py_t priority; T item; pos_t pos;}` together with a
current `size` and a fixed `maxSize`.  We embed the live prefix of that array
as a Lean list of `PItem` records; the pointer identity of each allocated
record is modelled by an `id` field drawn from a counter in the queue state
(the handle returned by `emplace`).  All priority values are only ever stored
and compared (never added), and every index expression the code evaluates on
reachable states fits comfortably inside the C++ integer types (`2*i` is
computed after integer promotion to `int`), so `Nat` is a faithful carrier and
no modular reduction is needed.

The loops `upRestore` and `downRestore` are written with explicit fuel so that
every definition computes by kernel reduction; the canonical fuel is proved
sufficient (`downRestoreLoop_complete`), which is exactly the termination
argument the design document asks about.
-/

/-- One heap entry: C++ `PriorityItem<T> {py_t priority; T item; pos_t pos;}`,
plus an `id` modelling the identity of the heap-allocated record (the value of
the pointer handed out by `emplace`). -/
structure PItem (α : Type) where
  priority : Nat
  item : α
  pos : Nat
  id : Nat
deriving DecidableEq, Repr

variable {α β : Type}

/-- Priority stored at index `i` (`heap[i]->priority`); `0` outside the live
prefix — the C++ code never reads out of bounds on the states we consider. -/
def pAt (l : List (PItem α)) (i : Nat) : Nat :=
  (l[i]?.map PItem.priority).getD 0

/-- Position field stored at index `i` (`heap[i]->pos`). -/
def posAt (l : List (PItem α)) (i : Nat) : Nat :=
  (l[i]?.map PItem.pos).getD 0

/-- C++ `BinHeapPQ::swap(heap[i], heap[j])`: the two array slots exchange their
pointers and the `pos` fields are rewritten so that each record carries the
`pos` value previously stored in its new slot. -/
def swap (l : List (PItem α)) (i j : Nat) : List (PItem α) :=
  match l[i]?, l[j]? with
  | some a, some b => (l.set i { b with pos := a.pos }).set j { a with pos := b.pos }
  | _, _ => l

/-- `heap[i]->priority = p` (used by `decrease` and `increase`). -/
def setPriority (l : List (PItem α)) (i : Nat) (p : Nat) : List (PItem α) :=
  match l[i]? with
  | some e => l.set i { e with priority := p }
  | none => l

/-- Fuel-indexed body of C++ `BinHeapPQ::upRestore`:
`while (i > 0 && heap[i]->priority < heap[i/2]->priority) { swap(heap[i], heap[i/2]); i /= 2; }`. -/
def upRestoreF : Nat → List (PItem α) → Nat → List (PItem α)
  | 0, l, _ => l
  | f + 1, l, i =>
    if 0 < i ∧ pAt l i < pAt l (i / 2) then
      upRestoreF f (swap l i (i / 2)) (i / 2)
    else l

/-- C++ `BinHeapPQ::upRestore(i)`.  The loop index at least halves on every
iteration, so `i` units of fuel always complete the loop. -/
def upRestore (l : List (PItem α)) (i : Nat) : List (PItem α) :=
  upRestoreF i l i

/-- One round of the `downRestore` loop body: the position of the minimum item
between `i` and the children the code inspects, which are `2*i` and `2*i+1`. -/
def downIdx (l : List (PItem α)) (i : Nat) : Nat :=
  let m := if 2 * i < l.length ∧ pAt l (2 * i) < pAt l i then 2 * i else i
  if 2 * i + 1 < l.length ∧ pAt l (2 * i + 1) < pAt l m then 2 * i + 1 else m

/-- Fuel-indexed body of C++ `BinHeapPQ::downRestore`: while true, compute the
minimum among `i` and its inspected children; swap and continue there, or
break when `i` is already minimal. -/
def downRestoreF : Nat → List (PItem α) → Nat → List (PItem α)
  | 0, l, _ => l
  | f + 1, l, i =>
    if downIdx l i ≠ i then
      downRestoreF f (swap l i (downIdx l i)) (downIdx l i)
    else l

/-- C++ `BinHeapPQ::downRestore(i)`; `length + 1` units of fuel are proved
sufficient below (the loop index strictly increases and is bounded). -/
def downRestore (l : List (PItem α)) (i : Nat) : List (PItem α) :=
  downRestoreF (l.length + 1) l i

/-- The unbounded `while (i >= 0)` loop of `downRestore` as written in the
source, observed through a step budget: `none` means the budget was exhausted
before the internal `break` fired. -/
def downRestoreLoop : Nat → List (PItem α) → Nat → Option (List (PItem α))
  | 0, _, _ => none
  | f + 1, l, i =>
    if downIdx l i ≠ i then
      downRestoreLoop f (swap l i (downIdx l i)) (downIdx l i)
    else some l

/-- The queue state: C++ `BinHeapPQ<T>` with `maxSize`, the live prefix
`heap[0..size)`, and the allocation counter providing fresh record ids. -/
structure BinHeapPQ (α : Type) where
  maxSize : Nat
  heap : List (PItem α)
  nextId : Nat
deriving DecidableEq, Repr

namespace BinHeapPQ

/-- The constructor `BinHeapPQ(maxSize)`: `size = 0`. -/
def new (cap : Nat) : BinHeapPQ α := ⟨cap, [], 0⟩

/-- C++ `isEmpty`: `size == 0`. -/
def isEmpty (q : BinHeapPQ α) : Bool := q.heap.length = 0

/-- C++ `isFull`: `size == maxSize`. -/
def isFull (q : BinHeapPQ α) : Bool := q.heap.length = q.maxSize

/-- C++ `min`: returns `heap[0]->item` when `size > 0`, otherwise throws the
string literal `"Empty priority queue!"`. -/
def min (q : BinHeapPQ α) : Except String α :=
  match q.heap with
  | e :: _ => .ok e.item
  | [] => .error "Empty priority queue!"

/-- C++ `emplace(priority, item)`: `nullptr` (modelled as `none`) when
`size >= maxSize`; otherwise the new record is stored at index `size` with
`pos = size`, `size` is incremented, the heap is restored upwards from
`size-1`, and the pointer to the new record (its fresh id) is returned. -/
def emplace (q : BinHeapPQ α) (priority : Nat) (item : α) :
    BinHeapPQ α × Option Nat :=
  if q.heap.length ≥ q.maxSize then (q, none)
  else
    let nl := q.heap ++ [⟨priority, item, q.heap.length, q.nextId⟩]
    (⟨q.maxSize, upRestore nl (nl.length - 1), q.nextId + 1⟩, some q.nextId)

/-- The record a handle (pointer) `h` designates: the live entry whose id is
`h`. -/
def findByHandle (q : BinHeapPQ α) (h : Nat) : Option (PItem α) :=
  q.heap.find? (fun e => e.id = h)

/-- C++ `decrease(newPriority, pi)`: nothing when `newPriority >= pi->priority`;
otherwise `heap[pi->pos]->priority = newPriority` followed by
`upRestore(pi->pos)`. -/
def decrease (q : BinHeapPQ α) (newPriority : Nat) (h : Nat) : BinHeapPQ α :=
  match q.findByHandle h with
  | none => q
  | some pi =>
    if newPriority ≥ pi.priority then q
    else ⟨q.maxSize, upRestore (setPriority q.heap pi.pos newPriority) pi.pos, q.nextId⟩

/-- C++ `increase(newPriority, pi)`: nothing when `newPriority <= pi->priority`;
otherwise `heap[pi->pos]->priority = newPriority` followed by
`downRestore(pi->pos)`. -/
def increase (q : BinHeapPQ α) (newPriority : Nat) (h : Nat) : BinHeapPQ α :=
  match q.findByHandle h with
  | none => q
  | some pi =>
    if newPriority ≤ pi.priority then q
    else ⟨q.maxSize, downRestore (setPriority q.heap pi.pos newPriority) pi.pos, q.nextId⟩

/-- C++ `deleteMin`: plain `return` when `size <= 0`; otherwise swap root and
last slot when `size > 1`, delete the last record and decrement `size`, then
restore downwards from the root when more than one entry remains. -/
def deleteMin (q : BinHeapPQ α) : BinHeapPQ α :=
  if q.heap.length = 0 then q
  else
    let l1 := if 1 < q.heap.length then swap q.heap 0 (q.heap.length - 1) else q.heap
    let l2 := l1.dropLast
    ⟨q.maxSize, if 1 < l2.length then downRestore l2 0 else l2, q.nextId⟩

end BinHeapPQ

/-- A client call, for describing arbitrary operation sequences. -/
inductive Op (α : Type) where
  | emplace (priority : Nat) (item : α)
  | deleteMin
  | decrease (newPriority : Nat) (handle : Nat)
  | increase (newPriority : Nat) (handle : Nat)
deriving DecidableEq, Repr

/-- Apply one public operation to the state. -/
def applyOp (q : BinHeapPQ α) : Op α → BinHeapPQ α
  | .emplace p x => (q.emplace p x).1
  | .deleteMin => q.deleteMin
  | .decrease p h => q.decrease p h
  | .increase p h => q.increase p h

/-- The state reached from a fresh queue of capacity `cap` after a sequence of
public operations. -/
def runOps (cap : Nat) (ops : List (Op α)) : BinHeapPQ α :=
  ops.foldl applyOp (BinHeapPQ.new cap)

/-- Priorities of the live prefix, in array order. -/
def prios (l : List (PItem α)) : List Nat := l.map PItem.priority

/-- Fuel-indexed extraction: read the root priority, `deleteMin`, repeat. -/
def extractF : Nat → BinHeapPQ α → List Nat
  | 0, _ => []
  | f + 1, q =>
    if q.heap.length = 0 then []
    else pAt q.heap 0 :: extractF f q.deleteMin

/-- The sequence of root priorities observed by draining the queue with
`min` / `deleteMin` pairs until it is empty. -/
def extractPrios (q : BinHeapPQ α) : List Nat :=
  extractF q.heap.length q

/-- The heap-order invariant exactly as the design document states it:
`priority[i] ≥ priority[(i−1)/2]` for every `i` in `[1, n)`. -/
def specHeapOrd (l : List (PItem α)) : Prop :=
  ∀ i, i < l.length → 1 ≤ i → pAt l ((i - 1) / 2) ≤ pAt l i

/-- The heap-order invariant the code actually maintains: the parent of `i` is
`i / 2`, so `priority[i] ≥ priority[i/2]` for every `i` in `[1, n)`. -/
def heapOrd (l : List (PItem α)) : Prop :=
  ∀ i, i < l.length → 1 ≤ i → pAt l (i / 2) ≤ pAt l i

/-- Position consistency: the record stored at index `i` carries `pos = i`. -/
def posOk (l : List (PItem α)) : Prop :=
  ∀ i, i < l.length → posAt l i = i

/-- Record identities: ids are pairwise distinct and below the allocation
counter, mirroring distinctness of the heap-allocated C++ records. -/
def idsOk (q : BinHeapPQ α) : Prop :=
  (q.heap.map PItem.id).Nodup ∧ ∀ x ∈ q.heap.map PItem.id, x < q.nextId

/-- The state invariant: code heap order, position consistency, capacity bound
and well-formed record identities. -/
def PQInv (q : BinHeapPQ α) : Prop :=
  heapOrd q.heap ∧ posOk q.heap ∧ q.heap.length ≤ q.maxSize ∧ idsOk q

/-- Precondition of a sift-up from `k`: every code heap edge holds except
possibly the one into `k`, and the grandparent of `k` already bounds the
children of `k`. -/
def UpPre (l : List (PItem α)) (k : Nat) : Prop :=
  (∀ j, j < l.length → 1 ≤ j → j ≠ k → pAt l (j / 2) ≤ pAt l j) ∧
  (∀ j, j < l.length → 1 ≤ j → j / 2 = k → 1 ≤ k → pAt l (k / 2) ≤ pAt l j)

/-- Precondition of a sift-down from `k`: every code heap edge holds except
possibly the ones out of `k`, and the parent of `k` already bounds the
children of `k`. -/
def DownPre (l : List (PItem α)) (k : Nat) : Prop :=
  (∀ j, j < l.length → 1 ≤ j → j / 2 ≠ k → pAt l (j / 2) ≤ pAt l j) ∧
  (∀ j, j < l.length → 1 ≤ j → j / 2 = k → 1 ≤ k → pAt l (k / 2) ≤ pAt l j)

/-- Sift-up as the design document §4.3 words it: while `i > 0` and the entry
at `i` has strictly smaller priority than its parent at `(i−1)/2`, swap them
and set `i ← (i−1)/2` (fuel-indexed; the index strictly decreases, so `i`
units of fuel complete the loop). -/
def specSiftUpF : Nat → List (PItem α) → Nat → List (PItem α)
  | 0, l, _ => l
  | f + 1, l, i =>
    if 0 < i ∧ pAt l i < pAt l ((i - 1) / 2) then
      specSiftUpF f (swap l i ((i - 1) / 2)) ((i - 1) / 2)
    else l

/-- Sift-up exactly as the design document describes it. -/
def specSiftUp (l : List (PItem α)) (i : Nat) : List (PItem α) :=
  specSiftUpF i l i

/-- One round of the document's sift-down §4.4: `l = 2i+1`, `r = 2i+2`,
`m = i`; replace `m` by a strictly smaller child, left first. -/
def specDownIdx (l : List (PItem α)) (i : Nat) : Nat :=
  let m := if 2 * i + 1 < l.length ∧ pAt l (2 * i + 1) < pAt l i then 2 * i + 1 else i
  if 2 * i + 2 < l.length ∧ pAt l (2 * i + 2) < pAt l m then 2 * i + 2 else m

/-- Fuel-indexed sift-down loop as the design document §4.4 words it. -/
def specSiftDownF : Nat → List (PItem α) → Nat → List (PItem α)
  | 0, l, _ => l
  | f + 1, l, i =>
    if specDownIdx l i ≠ i then
      specSiftDownF f (swap l i (specDownIdx l i)) (specDownIdx l i)
    else l

/-- Sift-down exactly as the design document describes it. -/
def specSiftDown (l : List (PItem α)) (i : Nat) : List (PItem α) :=
  specSiftDownF (l.length + 1) l i

/-- The document's sift-up procedure with the parent formula corrected to what
the code uses: parent of `i` is `i / 2`. -/
def specSiftUpCorrectedF : Nat → List (PItem α) → Nat → List (PItem α)
  | 0, l, _ => l
  | f + 1, l, i =>
    if 0 < i ∧ pAt l i < pAt l (i / 2) then
      specSiftUpCorrectedF f (swap l i (i / 2)) (i / 2)
    else l

/-- The document's sift-up with the code's parent formula `i / 2`. -/
def specSiftUpCorrected (l : List (PItem α)) (i : Nat) : List (PItem α) :=
  specSiftUpCorrectedF i l i

/-- The document's sift-down child selection with the children formulas
corrected to what the code uses: `2i` and `2i+1`. -/
def specDownIdxCorrected (l : List (PItem α)) (i : Nat) : Nat :=
  let m := if 2 * i < l.length ∧ pAt l (2 * i) < pAt l i then 2 * i else i
  if 2 * i + 1 < l.length ∧ pAt l (2 * i + 1) < pAt l m then 2 * i + 1 else m

/-- The document's sift-down loop, children corrected to `2i` and `2i+1`. -/
def specSiftDownCorrectedF : Nat → List (PItem α) → Nat → List (PItem α)
  | 0, l, _ => l
  | f + 1, l, i =>
    if specDownIdxCorrected l i ≠ i then
      specSiftDownCorrectedF f (swap l i (specDownIdxCorrected l i)) (specDownIdxCorrected l i)
    else l

/-- The document's sift-down with the code's children formulas. -/
def specSiftDownCorrected (l : List (PItem α)) (i : Nat) : List (PItem α) :=
  specSiftDownCorrectedF (l.length + 1) l i

instance (l : List (PItem α)) : Decidable (specHeapOrd l) := by
  unfold specHeapOrd; infer_instance

instance (l : List (PItem α)) : Decidable (heapOrd l) := by
  unfold heapOrd; infer_instance

instance (l : List (PItem α)) : Decidable (posOk l) := by
  unfold posOk; infer_instance

instance (q : BinHeapPQ α) : Decidable (idsOk q) := by
  unfold idsOk; exact instDecidableAnd

instance (q : BinHeapPQ α) : Decidable (PQInv q) := by
  unfold PQInv; infer_instance

/-! ### Basic facts about the heap primitives -/

lemma set_getElem_self (l : List β) (i : Nat) (h : i < l.length) :
    l.set i (l.get ⟨i, h⟩) = l := by
  apply List.ext_getElem?
  intro n
  rw [List.getElem?_set]
  split
  · subst n
    simp [List.getElem?_eq_getElem h]
  · rfl

lemma length_swap (l : List (PItem α)) (i j : Nat) :
    (swap l i j).length = l.length := by
  rcases h1 : l[i]? with _ | a <;> rcases h2 : l[j]? with _ | b <;>
    simp [swap, h1, h2]

lemma swap_eq_of_lt (l : List (PItem α)) {i j : Nat}
    (hi : i < l.length) (hj : j < l.length) :
    swap l i j = (l.set i { l.get ⟨j, hj⟩ with pos := (l.get ⟨i, hi⟩).pos }).set j
      { l.get ⟨i, hi⟩ with pos := (l.get ⟨j, hj⟩).pos } := by
  simp [swap, List.getElem?_eq_getElem hi, List.getElem?_eq_getElem hj]

lemma pAt_swap (l : List (PItem α)) {i j : Nat} (t : Nat)
    (hi : i < l.length) (hj : j < l.length) :
    pAt (swap l i j) t =
      if t = j then pAt l i else if t = i then pAt l j else pAt l t := by
  rw [swap_eq_of_lt l hi hj]
  unfold pAt
  simp only [List.getElem?_set, List.length_set]
  by_cases h1 : t = j
  · subst t
    simp [hi, hj, List.getElem?_eq_getElem hi]
  · by_cases h2 : t = i
    · subst t
      simp [h1, Ne.symm h1, hi, hj, List.getElem?_eq_getElem hj]
    · simp [h1, h2, Ne.symm h1, Ne.symm h2]

lemma posOk_swap (l : List (PItem α)) (i j : Nat) (H : posOk l) :
    posOk (swap l i j) := by
  rcases h1 : l[i]? with _ | a
  · rcases h2 : l[j]? with _ | b <;> simpa [swap, h1, h2] using H
  rcases h2 : l[j]? with _ | b
  · simpa [swap, h1, h2] using H
  have hi : i < l.length := by
    by_contra hcon
    rw [List.getElem?_eq_none (by omega)] at h1; exact Option.noConfusion h1
  have hj : j < l.length := by
    by_contra hcon
    rw [List.getElem?_eq_none (by omega)] at h2; exact Option.noConfusion h2
  have ha : a.pos = i := by
    have := H i hi
    simpa [posAt, h1] using this
  have hb : b.pos = j := by
    have := H j hj
    simpa [posAt, h2] using this
  intro t ht
  rw [length_swap] at ht
  unfold posAt
  simp only [swap, h1, h2]
  rw [List.getElem?_set, List.getElem?_set]
  simp only [List.length_set]
  by_cases e1 : t = j
  · subst t
    simp [hj, ha, hb]
  · by_cases e2 : t = i
    · subst t
      simp [Ne.symm e1, hi, hj, ha, hb]
    · have := H t ht
      simpa [posAt, Ne.symm e1, Ne.symm e2] using this

lemma cons_set_perm (x : β) :
    ∀ (t : List β) (k : Nat) (hk : k < t.length),
      (t.get ⟨k, hk⟩ :: t.set k x).Perm (x :: t) := by
  intro t
  induction t with
  | nil => intro k hk; simp at hk
  | cons a s ih =>
    intro k hk
    cases k with
    | zero =>
      simpa using List.Perm.swap x a s
    | succ k =>
      have hk' : k < s.length := by simpa using hk
      have step1 : (s.get ⟨k, hk'⟩ :: a :: s.set k x).Perm
          (a :: s.get ⟨k, hk'⟩ :: s.set k x) := List.Perm.swap a _ _
      have step2 : (a :: s.get ⟨k, hk'⟩ :: s.set k x).Perm (a :: x :: s) :=
        (ih k hk').cons a
      have step3 : (a :: x :: s).Perm (x :: a :: s) := List.Perm.swap x a s
      simpa using (step1.trans step2).trans step3

lemma set_set_perm :
    ∀ (m : List β) (i j : Nat) (hi : i < m.length) (hj : j < m.length),
      ((m.set i (m.get ⟨j, hj⟩)).set j (m.get ⟨i, hi⟩)).Perm m := by
  intro m
  induction m with
  | nil => intro i j hi hj; simp at hi
  | cons a s ih =>
    intro i j hi hj
    cases i with
    | zero =>
      cases j with
      | zero => simp
      | succ j =>
        have hj' : j < s.length := by simpa using hj
        simpa using cons_set_perm a s j hj'
    | succ i =>
      cases j with
      | zero =>
        have hi' : i < s.length := by simpa using hi
        simpa using cons_set_perm a s i hi'
      | succ j =>
        have hi' : i < s.length := by simpa using hi
        have hj' : j < s.length := by simpa using hj
        simpa using (ih i j hi' hj').cons a

lemma map_swap_perm (f : PItem α → β)
    (hf : ∀ (e : PItem α) (p : Nat), f { e with pos := p } = f e)
    (l : List (PItem α)) (i j : Nat) :
    ((swap l i j).map f).Perm (l.map f) := by
  by_cases hi : i < l.length
  · by_cases hj : j < l.length
    · rw [swap_eq_of_lt l hi hj]
      rw [List.map_set, List.map_set]
      have e1 : f { l.get ⟨j, hj⟩ with pos := (l.get ⟨i, hi⟩).pos } =
          (l.map f).get ⟨j, by simpa using hj⟩ := by
        rw [hf]; simp [List.getElem_map]
      have e2 : f { l.get ⟨i, hi⟩ with pos := (l.get ⟨j, hj⟩).pos } =
          (l.map f).get ⟨i, by simpa using hi⟩ := by
        rw [hf]; simp [List.getElem_map]
      rw [e1, e2]
      exact set_set_perm (l.map f) i j (by simpa using hi) (by simpa using hj)
    · have : l[j]? = none := List.getElem?_eq_none (by omega)
      rcases h1 : l[i]? with _ | a <;> simp [swap, h1, this]
  · have : l[i]? = none := List.getElem?_eq_none (by omega)
    simp [swap, this]

lemma prios_swap_perm (l : List (PItem α)) (i j : Nat) :
    (prios (swap l i j)).Perm (prios l) :=
  map_swap_perm PItem.priority (fun _ _ => rfl) l i j

lemma ids_swap_perm (l : List (PItem α)) (i j : Nat) :
    ((swap l i j).map PItem.id).Perm (l.map PItem.id) :=
  map_swap_perm PItem.id (fun _ _ => rfl) l i j

lemma keys_swap_perm (l : List (PItem α)) (i j : Nat) :
    ((swap l i j).map (fun e => (e.id, e.priority))).Perm
      (l.map (fun e => (e.id, e.priority))) :=
  map_swap_perm (fun e => (e.id, e.priority)) (fun _ _ => rfl) l i j

/-! ### The sift loops preserve length, positions, and content -/

lemma length_upRestoreF :
    ∀ (f : Nat) (l : List (PItem α)) (i : Nat), (upRestoreF f l i).length = l.length := by
  intro f
  induction f with
  | zero => intro l i; rfl
  | succ f ih =>
    intro l i
    unfold upRestoreF
    split
    · rw [ih, length_swap]
    · rfl

lemma length_downRestoreF :
    ∀ (f : Nat) (l : List (PItem α)) (i : Nat), (downRestoreF f l i).length = l.length := by
  intro f
  induction f with
  | zero => intro l i; rfl
  | succ f ih =>
    intro l i
    unfold downRestoreF
    split
    · rw [ih, length_swap]
    · rfl

lemma length_upRestore (l : List (PItem α)) (i : Nat) :
    (upRestore l i).length = l.length := length_upRestoreF i l i

lemma length_downRestore (l : List (PItem α)) (i : Nat) :
    (downRestore l i).length = l.length := length_downRestoreF (l.length + 1) l i

lemma posOk_upRestoreF :
    ∀ (f : Nat) (l : List (PItem α)) (i : Nat), posOk l → posOk (upRestoreF f l i) := by
  intro f
  induction f with
  | zero => intro l i H; exact H
  | succ f ih =>
    intro l i H
    unfold upRestoreF
    split
    · exact ih _ _ (posOk_swap l i (i / 2) H)
    · exact H

lemma posOk_downRestoreF :
    ∀ (f : Nat) (l : List (PItem α)) (i : Nat), posOk l → posOk (downRestoreF f l i) := by
  intro f
  induction f with
  | zero => intro l i H; exact H
  | succ f ih =>
    intro l i H
    unfold downRestoreF
    split
    · exact ih _ _ (posOk_swap l i (downIdx l i) H)
    · exact H

lemma map_upRestoreF_perm (f : PItem α → β)
    (hf : ∀ (e : PItem α) (p : Nat), f { e with pos := p } = f e) :
    ∀ (fl : Nat) (l : List (PItem α)) (i : Nat),
      ((upRestoreF fl l i).map f).Perm (l.map f) := by
  intro fl
  induction fl with
  | zero => intro l i; exact List.Perm.refl _
  | succ fl ih =>
    intro l i
    unfold upRestoreF
    split
    · exact (ih _ _).trans (map_swap_perm f hf l i (i / 2))
    · exact List.Perm.refl _

lemma map_downRestoreF_perm (f : PItem α → β)
    (hf : ∀ (e : PItem α) (p : Nat), f { e with pos := p } = f e) :
    ∀ (fl : Nat) (l : List (PItem α)) (i : Nat),
      ((downRestoreF fl l i).map f).Perm (l.map f) := by
  intro fl
  induction fl with
  | zero => intro l i; exact List.Perm.refl _
  | succ fl ih =>
    intro l i
    unfold downRestoreF
    split
    · exact (ih _ _).trans (map_swap_perm f hf l i (downIdx l i))
    · exact List.Perm.refl _

/-! ### Evaluating `pAt` after a swap -/

lemma pAt_swap_snd (l : List (PItem α)) {a b : Nat}
    (ha : a < l.length) (hb : b < l.length) :
    pAt (swap l a b) b = pAt l a := by
  rw [pAt_swap l b ha hb, if_pos rfl]

lemma pAt_swap_fst (l : List (PItem α)) {a b : Nat}
    (ha : a < l.length) (hb : b < l.length) (hab : a ≠ b) :
    pAt (swap l a b) a = pAt l b := by
  rw [pAt_swap l a ha hb, if_neg hab, if_pos rfl]

lemma pAt_swap_other (l : List (PItem α)) {a b : Nat}
    (ha : a < l.length) (hb : b < l.length) (t : Nat)
    (hta : t ≠ a) (htb : t ≠ b) :
    pAt (swap l a b) t = pAt l t := by
  rw [pAt_swap l t ha hb, if_neg htb, if_neg hta]

/-! ### Sift-up restores the code heap order -/

lemma upPre_step (l : List (PItem α)) (k : Nat) (hk1 : 1 ≤ k) (hk : k < l.length)
    (hlt : pAt l k < pAt l (k / 2)) (H : UpPre l k) :
    UpPre (swap l k (k / 2)) (k / 2) := by
  have hp : k / 2 < l.length := lt_of_le_of_lt (Nat.div_le_self k 2) hk
  have hpk : k / 2 < k := Nat.div_lt_self (by omega) (by omega)
  have pAb : pAt (swap l k (k / 2)) (k / 2) = pAt l k := pAt_swap_snd l hk hp
  have pAa : pAt (swap l k (k / 2)) k = pAt l (k / 2) :=
    pAt_swap_fst l hk hp (by omega)
  have pAo : ∀ t, t ≠ k → t ≠ k / 2 → pAt (swap l k (k / 2)) t = pAt l t :=
    fun t hta htb => pAt_swap_other l hk hp t hta htb
  constructor
  · intro j hj h1 hne
    rw [length_swap] at hj
    by_cases e1 : j = k
    · subst j
      rw [pAa, pAb]
      exact le_of_lt hlt
    · rw [pAo j e1 hne]
      by_cases c1 : j / 2 = k
      · rw [c1, pAa]
        exact H.2 j hj h1 c1 hk1
      · by_cases c2 : j / 2 = k / 2
        · rw [c2, pAb]
          have h2 := H.1 j hj h1 e1
          rw [c2] at h2
          exact le_trans (le_of_lt hlt) h2
        · rw [pAo (j / 2) c1 c2]
          exact H.1 j hj h1 e1
  · intro j hj h1 hc hk2
    rw [length_swap] at hj
    have hq : k / 2 / 2 < k / 2 := Nat.div_lt_self (by omega) (by omega)
    rw [pAo (k / 2 / 2) (by omega) (by omega)]
    by_cases e1 : j = k
    · subst j
      rw [pAa]
      exact H.1 (k / 2) hp hk2 (by omega)
    · have ejp : j ≠ k / 2 := by omega
      rw [pAo j e1 ejp]
      have h2 := H.1 j hj h1 e1
      rw [hc] at h2
      exact le_trans (H.1 (k / 2) hp hk2 (by omega)) h2

lemma upPre_exit (l : List (PItem α)) (k : Nat) (H : UpPre l k)
    (hstop : ¬(0 < k ∧ pAt l k < pAt l (k / 2))) : heapOrd l := by
  intro j hj h1
  by_cases e : j = k
  · subst j
    push_neg at hstop
    exact hstop h1
  · exact H.1 j hj h1 e

lemma upRestoreF_heapOrd :
    ∀ (f : Nat) (l : List (PItem α)) (k : Nat), k ≤ f → k < l.length → UpPre l k →
      heapOrd (upRestoreF f l k) := by
  intro f
  induction f with
  | zero =>
    intro l k hf hk H
    have hk0 : k = 0 := by omega
    subst k
    exact upPre_exit l 0 H (by simp)
  | succ f ih =>
    intro l k hf hk H
    by_cases hcond : 0 < k ∧ pAt l k < pAt l (k / 2)
    · rw [show upRestoreF (f + 1) l k = upRestoreF f (swap l k (k / 2)) (k / 2) from by
        simp only [upRestoreF, if_pos hcond]]
      apply ih
      · omega
      · rw [length_swap]
        exact lt_of_le_of_lt (Nat.div_le_self k 2) hk
      · exact upPre_step l k hcond.1 hk hcond.2 H
    · rw [show upRestoreF (f + 1) l k = l from by simp only [upRestoreF, if_neg hcond]]
      exact upPre_exit l k H hcond

lemma upRestore_heapOrd (l : List (PItem α)) (k : Nat) (hk : k < l.length)
    (H : UpPre l k) : heapOrd (upRestore l k) :=
  upRestoreF_heapOrd k l k le_rfl hk H

/-! ### Sift-down restores the code heap order -/

lemma downIdx_min (l : List (PItem α)) (i : Nat) :
    pAt l (downIdx l i) ≤ pAt l i ∧
    (∀ c, (c = 2 * i ∨ c = 2 * i + 1) → c < l.length → pAt l (downIdx l i) ≤ pAt l c) ∧
    (downIdx l i = i ∨ ((downIdx l i = 2 * i ∨ downIdx l i = 2 * i + 1) ∧
      downIdx l i < l.length ∧ pAt l (downIdx l i) < pAt l i)) := by
  by_cases h1 : 2 * i < l.length ∧ pAt l (2 * i) < pAt l i
  · by_cases h2a : 2 * i + 1 < l.length ∧ pAt l (2 * i + 1) < pAt l (2 * i)
    · have hd : downIdx l i = 2 * i + 1 := by
        simp only [downIdx]
        rw [if_pos h1, if_pos h2a]
      rw [hd]
      refine ⟨le_of_lt (lt_trans h2a.2 h1.2), ?_, ?_⟩
      · intro c hc hcl
        rcases hc with rfl | rfl
        · exact le_of_lt h2a.2
        · exact le_rfl
      · exact Or.inr ⟨Or.inr rfl, h2a.1, lt_trans h2a.2 h1.2⟩
    · have hd : downIdx l i = 2 * i := by
        simp only [downIdx]
        rw [if_pos h1, if_neg h2a]
      rw [hd]
      push_neg at h2a
      refine ⟨le_of_lt h1.2, ?_, ?_⟩
      · intro c hc hcl
        rcases hc with rfl | rfl
        · exact le_rfl
        · exact h2a hcl
      · exact Or.inr ⟨Or.inl rfl, h1.1, h1.2⟩
  · by_cases h2b : 2 * i + 1 < l.length ∧ pAt l (2 * i + 1) < pAt l i
    · have hd : downIdx l i = 2 * i + 1 := by
        simp only [downIdx]
        rw [if_neg h1, if_pos h2b]
      rw [hd]
      push_neg at h1
      refine ⟨le_of_lt h2b.2, ?_, ?_⟩
      · intro c hc hcl
        rcases hc with rfl | rfl
        · exact le_trans (le_of_lt h2b.2) (h1 hcl)
        · exact le_rfl
      · exact Or.inr ⟨Or.inr rfl, h2b.1, h2b.2⟩
    · have hd : downIdx l i = i := by
        simp only [downIdx]
        rw [if_neg h1, if_neg h2b]
      rw [hd]
      push_neg at h1
      push_neg at h2b
      refine ⟨le_rfl, ?_, Or.inl rfl⟩
      intro c hc hcl
      rcases hc with rfl | rfl
      · exact h1 hcl
      · exact h2b hcl

lemma downPre_exit (l : List (PItem α)) (k : Nat) (H : DownPre l k)
    (heq : downIdx l k = k) : heapOrd l := by
  intro j hj h1
  by_cases hc : j / 2 = k
  · have hj2 : j = 2 * k ∨ j = 2 * k + 1 := by omega
    have hmin := (downIdx_min l k).2.1 j hj2 hj
    rw [heq] at hmin
    rw [hc]
    exact hmin
  · exact H.1 j hj h1 hc

lemma downPre_step (l : List (PItem α)) (k : Nat) (hk : k < l.length)
    (H : DownPre l k) (hne : downIdx l k ≠ k) :
    DownPre (swap l k (downIdx l k)) (downIdx l k) := by
  obtain ⟨hself, hmin, hcase⟩ := downIdx_min l k
  rcases hcase with heq | ⟨hm2, hmlt, hmval⟩
  · exact absurd heq hne
  have hkm : k < downIdx l k := by omega
  have hm_half : downIdx l k / 2 = k := by omega
  have h1m : 1 ≤ downIdx l k := by omega
  have pAb : pAt (swap l k (downIdx l k)) (downIdx l k) = pAt l k :=
    pAt_swap_snd l hk hmlt
  have pAa : pAt (swap l k (downIdx l k)) k = pAt l (downIdx l k) :=
    pAt_swap_fst l hk hmlt (by omega)
  have pAo : ∀ t, t ≠ k → t ≠ downIdx l k →
      pAt (swap l k (downIdx l k)) t = pAt l t :=
    fun t hta htb => pAt_swap_other l hk hmlt t hta htb
  constructor
  · intro j hj h1 hc
    rw [length_swap] at hj
    by_cases e1 : j = k
    · subst j
      rw [pAa, pAo (k / 2) (by omega) (by omega)]
      exact H.2 (downIdx l k) hmlt h1m hm_half h1
    · by_cases e2 : j = downIdx l k
      · subst e2
        rw [pAb, hm_half, pAa]
        exact le_of_lt hmval
      · rw [pAo j e1 e2]
        by_cases e3 : j / 2 = k
        · rw [e3, pAa]
          have hj2 : j = 2 * k ∨ j = 2 * k + 1 := by omega
          exact hmin j hj2 hj
        · rw [pAo (j / 2) e3 hc]
          exact H.1 j hj h1 e3
  · intro j hj h1 hc hm1
    rw [length_swap] at hj
    rw [hm_half, pAa]
    have hjm : j ≠ downIdx l k := by omega
    have hjk : j ≠ k := by omega
    rw [pAo j hjk hjm]
    have h2 := H.1 j hj h1 (by omega)
    rw [hc] at h2
    exact h2

lemma downRestoreF_heapOrd :
    ∀ (f : Nat) (l : List (PItem α)) (k : Nat), l.length ≤ f + k → k < l.length →
      DownPre l k → heapOrd (downRestoreF f l k) := by
  intro f
  induction f with
  | zero => intro l k hf hk H; omega
  | succ f ih =>
    intro l k hf hk H
    by_cases hcond : downIdx l k ≠ k
    · rw [show downRestoreF (f + 1) l k = downRestoreF f (swap l k (downIdx l k)) (downIdx l k)
        from by simp only [downRestoreF, if_pos hcond]]
      have hkm : k < downIdx l k := by
        rcases (downIdx_min l k).2.2 with heq | ⟨hm2, _, _⟩
        · exact absurd heq hcond
        · omega
      have hml : downIdx l k < l.length := by
        rcases (downIdx_min l k).2.2 with heq | ⟨_, hml, _⟩
        · exact absurd heq hcond
        · exact hml
      apply ih
      · rw [length_swap]; omega
      · rw [length_swap]; exact hml
      · exact downPre_step l k hk H hcond
    · rw [show downRestoreF (f + 1) l k = l from by simp only [downRestoreF, if_neg hcond]]
      push_neg at hcond
      exact downPre_exit l k H hcond

lemma downRestore_heapOrd (l : List (PItem α)) (k : Nat) (hk : k < l.length)
    (H : DownPre l k) : heapOrd (downRestore l k) :=
  downRestoreF_heapOrd (l.length + 1) l k (by omega) hk H

/-! ### Pointwise effect of append, truncation and priority writes -/

lemma pAt_append_lt (l : List (PItem α)) (x : PItem α) {t : Nat} (h : t < l.length) :
    pAt (l ++ [x]) t = pAt l t := by
  simp [pAt, List.getElem?_append, h]

lemma pAt_append_self (l : List (PItem α)) (x : PItem α) :
    pAt (l ++ [x]) l.length = x.priority := by
  simp [pAt, List.getElem?_concat_length]

lemma pAt_dropLast (l : List (PItem α)) {t : Nat} (h : t < l.length - 1) :
    pAt l.dropLast t = pAt l t := by
  unfold pAt
  rw [List.getElem?_dropLast, if_pos h]

lemma length_setPriority (l : List (PItem α)) (k p : Nat) :
    (setPriority l k p).length = l.length := by
  rcases h : l[k]? with _ | e <;> simp [setPriority, h]

lemma pAt_setPriority (l : List (PItem α)) {k : Nat} (p : Nat) (hk : k < l.length)
    (t : Nat) : pAt (setPriority l k p) t = if t = k then p else pAt l t := by
  have hkk := List.getElem?_eq_getElem hk
  simp only [setPriority, hkk]
  unfold pAt
  rw [List.getElem?_set]
  by_cases e : t = k
  · subst t
    simp [hk]
  · simp [e, Ne.symm e]

lemma posOk_setPriority (l : List (PItem α)) (k p : Nat) (H : posOk l) :
    posOk (setPriority l k p) := by
  rcases h : l[k]? with _ | e
  · simpa [setPriority, h] using H
  have hk : k < l.length := by
    by_contra hcon
    rw [List.getElem?_eq_none (by omega)] at h
    exact Option.noConfusion h
  intro t ht
  rw [show (setPriority l k p).length = l.length from length_setPriority l k p] at ht
  unfold posAt
  simp only [setPriority, h]
  rw [List.getElem?_set]
  by_cases e : k = t
  · subst t
    have := H k hk
    simp only [posAt, h] at this
    simpa [hk] using this
  · have := H t ht
    simpa [posAt, e] using this

lemma ids_setPriority (l : List (PItem α)) (k p : Nat) :
    (setPriority l k p).map PItem.id = l.map PItem.id := by
  rcases h : l[k]? with _ | e
  · simp [setPriority, h]
  have hk : k < l.length := by
    by_contra hcon
    rw [List.getElem?_eq_none (by omega)] at h
    exact Option.noConfusion h
  have he : l.get ⟨k, hk⟩ = e := by
    have := List.getElem?_eq_getElem hk
    rw [h] at this
    exact (Option.some.inj this).symm
  simp only [setPriority, h]
  rw [List.map_set]
  have hid : ({ e with priority := p } : PItem α).id =
      (l.map PItem.id).get ⟨k, by simpa using hk⟩ := by
    simp [List.getElem_map, he.symm]
  rw [hid, set_getElem_self]

/-! ### Preconditions established by each public operation -/

lemma upPre_emplace (l : List (PItem α)) (x : PItem α) (hord : heapOrd l) :
    UpPre (l ++ [x]) l.length := by
  constructor
  · intro j hj h1 hne
    rw [List.length_append, List.length_singleton] at hj
    have hjl : j < l.length := by omega
    rw [pAt_append_lt l x hjl, pAt_append_lt l x (by omega)]
    exact hord j hjl h1
  · intro j hj h1 hc hk1
    rw [List.length_append, List.length_singleton] at hj
    omega

lemma upPre_decrease (l : List (PItem α)) {k : Nat} (p : Nat) (hord : heapOrd l)
    (hk : k < l.length) (hp : p < pAt l k) : UpPre (setPriority l k p) k := by
  have pS := pAt_setPriority l p hk
  constructor
  · intro j hj h1 hne
    rw [length_setPriority] at hj
    rw [pS j, if_neg hne]
    by_cases c : j / 2 = k
    · rw [pS (j / 2), if_pos c]
      have h2 := hord j hj h1
      rw [c] at h2
      exact le_trans (le_of_lt hp) h2
    · rw [pS (j / 2), if_neg c]
      exact hord j hj h1
  · intro j hj h1 hc hk1
    rw [length_setPriority] at hj
    rw [pS j, if_neg (by omega), pS (k / 2), if_neg (by omega)]
    have h2 := hord j hj h1
    rw [hc] at h2
    exact le_trans (hord k hk hk1) h2

lemma downPre_increase (l : List (PItem α)) {k : Nat} (p : Nat) (hord : heapOrd l)
    (hk : k < l.length) (hp : pAt l k < p) : DownPre (setPriority l k p) k := by
  have pS := pAt_setPriority l p hk
  constructor
  · intro j hj h1 hc
    rw [length_setPriority] at hj
    by_cases e1 : j = k
    · subst e1
      rw [pS j, if_pos rfl, pS (j / 2), if_neg (by omega)]
      exact le_trans (hord j hk h1) (le_of_lt hp)
    · rw [pS j, if_neg e1, pS (j / 2), if_neg hc]
      exact hord j hj h1
  · intro j hj h1 hc hk1
    rw [length_setPriority] at hj
    rw [pS j, if_neg (by omega), pS (k / 2), if_neg (by omega)]
    have h2 := hord j hj h1
    rw [hc] at h2
    exact le_trans (hord k hk hk1) h2

lemma downPre_root (l : List (PItem α)) (hn : 2 ≤ l.length) (hord : heapOrd l) :
    DownPre ((swap l 0 (l.length - 1)).dropLast) 0 := by
  have h0 : 0 < l.length := by omega
  have hl : l.length - 1 < l.length := by omega
  have hlen1 : (swap l 0 (l.length - 1)).length = l.length := length_swap l 0 (l.length - 1)
  have hlen2 : ((swap l 0 (l.length - 1)).dropLast).length = l.length - 1 := by
    rw [List.length_dropLast, hlen1]
  constructor
  · intro j hj h1 hc
    rw [hlen2] at hj
    have hj2 : 2 ≤ j := by omega
    have e1 : pAt ((swap l 0 (l.length - 1)).dropLast) j = pAt l j := by
      rw [pAt_dropLast _ (by omega), pAt_swap_other l h0 hl j (by omega) (by omega)]
    have e2 : pAt ((swap l 0 (l.length - 1)).dropLast) (j / 2) = pAt l (j / 2) := by
      rw [pAt_dropLast _ (by omega), pAt_swap_other l h0 hl (j / 2) (by omega) (by omega)]
    rw [e1, e2]
    exact hord j (by omega) h1
  · intro j hj h1 hc hk1
    omega

lemma posOk_append (l : List (PItem α)) (x : PItem α) (H : posOk l)
    (hx : x.pos = l.length) : posOk (l ++ [x]) := by
  intro t ht
  rw [List.length_append, List.length_singleton] at ht
  unfold posAt
  rw [List.getElem?_append]
  by_cases h : t < l.length
  · rw [if_pos h]
    have := H t h
    simpa [posAt] using this
  · have : t = l.length := by omega
    subst this
    simp [List.getElem?_concat_length, hx]

lemma posOk_dropLast (l : List (PItem α)) (H : posOk l) : posOk l.dropLast := by
  intro t ht
  rw [List.length_dropLast] at ht
  unfold posAt
  rw [List.getElem?_dropLast, if_pos ht]
  have := H t (by omega)
  simpa [posAt] using this

lemma posOk_lookup (l : List (PItem α)) (H : posOk l) {e : PItem α} (he : e ∈ l) :
    e.pos < l.length ∧ l[e.pos]? = some e := by
  obtain ⟨n, hn, hget⟩ := List.mem_iff_getElem.mp he
  have hp := H n hn
  unfold posAt at hp
  rw [List.getElem?_eq_getElem hn] at hp
  simp only [Option.map_some', Option.getD_some] at hp
  have hpe : e.pos = n := by rw [← hget]; exact hp
  refine ⟨by omega, ?_⟩
  rw [hpe, List.getElem?_eq_getElem hn, hget]

lemma pAt_of_getElem? (l : List (PItem α)) {i : Nat} {e : PItem α}
    (h : l[i]? = some e) : pAt l i = e.priority := by
  simp [pAt, h]

lemma heapOrd_small (l : List (PItem α)) (h : l.length ≤ 1) : heapOrd l := by
  intro i hi h1
  omega

/-! ### Every public operation preserves the state invariant -/

lemma PQInv_emplace (q : BinHeapPQ α) (p : Nat) (x : α) (H : PQInv q) :
    PQInv (q.emplace p x).1 := by
  by_cases hfull : q.heap.length ≥ q.maxSize
  · simpa [BinHeapPQ.emplace, hfull] using H
  obtain ⟨hord, hpos, hcap, hnd, hbd⟩ := H
  have hx : (⟨p, x, q.heap.length, q.nextId⟩ : PItem α).pos = q.heap.length := rfl
  have key : (q.emplace p x).1 =
      ⟨q.maxSize, upRestore (q.heap ++ [⟨p, x, q.heap.length, q.nextId⟩]) q.heap.length,
        q.nextId + 1⟩ := by
    simp only [BinHeapPQ.emplace, if_neg hfull, List.length_append, List.length_singleton,
      Nat.add_sub_cancel]
  rw [key]
  set x' : PItem α := ⟨p, x, q.heap.length, q.nextId⟩ with hx'
  have hlen : (q.heap ++ [x']).length = q.heap.length + 1 := by
    rw [List.length_append, List.length_singleton]
  have hperm : ((upRestore (q.heap ++ [x']) q.heap.length).map PItem.id).Perm
      ((q.heap ++ [x']).map PItem.id) :=
    map_upRestoreF_perm PItem.id (fun _ _ => rfl) _ _ _
  have hidsapp : (q.heap ++ [x']).map PItem.id = q.heap.map PItem.id ++ [q.nextId] := by
    simp [hx']
  unfold PQInv idsOk
  dsimp only
  refine ⟨?_, ?_, ?_, ?_, ?_⟩
  · exact upRestore_heapOrd _ _ (by omega) (upPre_emplace q.heap x' hord)
  · exact posOk_upRestoreF _ _ _ (posOk_append q.heap x' hpos hx)
  · rw [length_upRestore, hlen]
    omega
  · rw [hperm.nodup_iff, hidsapp]
    have hns : (q.heap.map PItem.id ++ [q.nextId]).Perm (q.nextId :: q.heap.map PItem.id) :=
      List.perm_append_singleton _ _
    rw [hns.nodup_iff, List.nodup_cons]
    exact ⟨fun hmem => absurd (hbd _ hmem) (by omega), hnd⟩
  · intro y hy
    have hy2 := hperm.mem_iff.mp hy
    rw [hidsapp, List.mem_append] at hy2
    rcases hy2 with hy2 | hy2
    · exact lt_trans (hbd y hy2) (by omega)
    · simp at hy2
      omega

lemma PQInv_deleteMin (q : BinHeapPQ α) (H : PQInv q) : PQInv q.deleteMin := by
  by_cases h0 : q.heap.length = 0
  · simpa [BinHeapPQ.deleteMin, h0] using H
  obtain ⟨hord, hpos, hcap, hnd, hbd⟩ := H
  simp only [BinHeapPQ.deleteMin, if_neg h0]
  set l1 := if 1 < q.heap.length then swap q.heap 0 (q.heap.length - 1) else q.heap with hl1
  have hlen1 : l1.length = q.heap.length := by
    rw [hl1]
    split
    · exact length_swap _ _ _
    · rfl
  have hpos1 : posOk l1 := by
    rw [hl1]
    split
    · exact posOk_swap _ _ _ hpos
    · exact hpos
  have hids1 : (l1.map PItem.id).Perm (q.heap.map PItem.id) := by
    rw [hl1]
    split
    · exact ids_swap_perm _ _ _
    · exact List.Perm.refl _
  have hlen2 : l1.dropLast.length = q.heap.length - 1 := by
    rw [List.length_dropLast, hlen1]
  have hpos2 : posOk l1.dropLast := posOk_dropLast _ hpos1
  have hids2sub : (l1.dropLast.map PItem.id).Sublist (l1.map PItem.id) :=
    (List.dropLast_sublist l1).map PItem.id
  have hnd2 : (l1.dropLast.map PItem.id).Nodup :=
    hids2sub.nodup (hids1.nodup_iff.mpr hnd)
  have hbd2 : ∀ y ∈ l1.dropLast.map PItem.id, y < q.nextId := fun y hy =>
    hbd y (hids1.mem_iff.mp (hids2sub.subset hy))
  unfold PQInv idsOk
  dsimp only
  by_cases hn2 : 1 < l1.dropLast.length
  · simp only [if_pos hn2]
    have hdp : DownPre l1.dropLast 0 := by
      have hg2 : 1 < q.heap.length := by omega
      rw [hl1, if_pos hg2]
      exact downPre_root q.heap (by omega) hord
    have hperm : ((downRestore l1.dropLast 0).map PItem.id).Perm (l1.dropLast.map PItem.id) :=
      map_downRestoreF_perm PItem.id (fun _ _ => rfl) _ _ _
    refine ⟨?_, ?_, ?_, ?_, ?_⟩
    · exact downRestore_heapOrd _ _ (by omega) hdp
    · exact posOk_downRestoreF _ _ _ hpos2
    · rw [length_downRestore, hlen2]
      omega
    · exact hperm.nodup_iff.mpr hnd2
    · exact fun y hy => hbd2 y (hperm.mem_iff.mp hy)
  · simp only [if_neg hn2]
    refine ⟨heapOrd_small _ (by omega), hpos2, by omega, hnd2, hbd2⟩

lemma PQInv_decrease (q : BinHeapPQ α) (p h : Nat) (H : PQInv q) :
    PQInv (q.decrease p h) := by
  rcases hf : q.findByHandle h with _ | pi
  · simpa [BinHeapPQ.decrease, hf] using H
  obtain ⟨hord, hpos, hcap, hnd, hbd⟩ := H
  by_cases hge : p ≥ pi.priority
  · simpa [BinHeapPQ.decrease, hf, hge] using ⟨hord, hpos, hcap, hnd, hbd⟩
  simp only [BinHeapPQ.decrease, hf, if_neg hge]
  have hmem : pi ∈ q.heap := List.mem_of_find?_eq_some hf
  obtain ⟨hk, hget⟩ := posOk_lookup q.heap hpos hmem
  have hplt : p < pAt q.heap pi.pos := by
    rw [pAt_of_getElem? q.heap hget]
    omega
  have hperm : ((upRestore (setPriority q.heap pi.pos p) pi.pos).map PItem.id).Perm
      ((setPriority q.heap pi.pos p).map PItem.id) :=
    map_upRestoreF_perm PItem.id (fun _ _ => rfl) _ _ _
  have hideq := ids_setPriority q.heap pi.pos p
  refine ⟨?_, ?_, ?_, ?_, ?_⟩
  · exact upRestore_heapOrd _ _ (by rw [length_setPriority]; omega)
      (upPre_decrease q.heap p hord hk hplt)
  · exact posOk_upRestoreF _ _ _ (posOk_setPriority q.heap pi.pos p hpos)
  · rw [length_upRestore, length_setPriority]
    exact hcap
  · rw [hperm.nodup_iff, hideq]
    exact hnd
  · intro y hy
    exact hbd y (by rw [← hideq]; exact hperm.mem_iff.mp hy)

lemma PQInv_increase (q : BinHeapPQ α) (p h : Nat) (H : PQInv q) :
    PQInv (q.increase p h) := by
  rcases hf : q.findByHandle h with _ | pi
  · simpa [BinHeapPQ.increase, hf] using H
  obtain ⟨hord, hpos, hcap, hnd, hbd⟩ := H
  by_cases hle : p ≤ pi.priority
  · simpa [BinHeapPQ.increase, hf, hle] using ⟨hord, hpos, hcap, hnd, hbd⟩
  simp only [BinHeapPQ.increase, hf, if_neg hle]
  have hmem : pi ∈ q.heap := List.mem_of_find?_eq_some hf
  obtain ⟨hk, hget⟩ := posOk_lookup q.heap hpos hmem
  have hplt : pAt q.heap pi.pos < p := by
    rw [pAt_of_getElem? q.heap hget]
    omega
  have hperm : ((downRestore (setPriority q.heap pi.pos p) pi.pos).map PItem.id).Perm
      ((setPriority q.heap pi.pos p).map PItem.id) :=
    map_downRestoreF_perm PItem.id (fun _ _ => rfl) _ _ _
  have hideq := ids_setPriority q.heap pi.pos p
  refine ⟨?_, ?_, ?_, ?_, ?_⟩
  · exact downRestore_heapOrd _ _ (by rw [length_setPriority]; omega)
      (downPre_increase q.heap p hord hk hplt)
  · exact posOk_downRestoreF _ _ _ (posOk_setPriority q.heap pi.pos p hpos)
  · rw [length_downRestore, length_setPriority]
    exact hcap
  · rw [hperm.nodup_iff, hideq]
    exact hnd
  · intro y hy
    exact hbd y (by rw [← hideq]; exact hperm.mem_iff.mp hy)

lemma PQInv_new (cap : Nat) : PQInv (BinHeapPQ.new cap : BinHeapPQ α) := by
  refine ⟨heapOrd_small _ (by simp [BinHeapPQ.new]), ?_, by simp [BinHeapPQ.new], by
    simp [BinHeapPQ.new], by simp [BinHeapPQ.new]⟩
  intro t ht
  simp [BinHeapPQ.new] at ht

lemma PQInv_applyOp (q : BinHeapPQ α) (op : Op α) (H : PQInv q) :
    PQInv (applyOp q op) := by
  cases op with
  | emplace p x => exact PQInv_emplace q p x H
  | deleteMin => exact PQInv_deleteMin q H
  | decrease p h => exact PQInv_decrease q p h H
  | increase p h => exact PQInv_increase q p h H

lemma PQInv_foldl :
    ∀ (ops : List (Op α)) (q : BinHeapPQ α), PQInv q → PQInv (ops.foldl applyOp q) := by
  intro ops
  induction ops with
  | nil => intro q H; exact H
  | cons op rest ih =>
    intro q H
    exact ih (applyOp q op) (PQInv_applyOp q op H)

lemma PQInv_runOps (cap : Nat) (ops : List (Op α)) : PQInv (runOps cap ops) :=
  PQInv_foldl ops (BinHeapPQ.new cap) (PQInv_new cap)

/-! ### Draining the queue -/

lemma pAt_get (l : List (PItem α)) (j : Nat) (hj : j < l.length) :
    pAt l j = (l.get ⟨j, hj⟩).priority := by
  rw [pAt, List.getElem?_eq_getElem hj, List.get_eq_getElem]
  rfl

lemma dropLast_set_last (m : List β) (k : Nat) (x : β) (hk : m.length - 1 ≤ k) :
    (m.set k x).dropLast = m.dropLast := by
  apply List.ext_getElem?
  intro t
  rw [List.getElem?_dropLast, List.getElem?_dropLast, List.length_set]
  by_cases h : t < m.length - 1
  · rw [if_pos h, if_pos h, List.getElem?_set, if_neg (by omega)]
  · rw [if_neg h, if_neg h]

lemma dropLast_set_lt (m : List β) (k : Nat) (x : β) (hk : k < m.length - 1) :
    (m.set k x).dropLast = m.dropLast.set k x := by
  apply List.ext_getElem?
  intro t
  rw [List.getElem?_dropLast, List.length_set, List.getElem?_set,
    List.getElem?_set, List.getElem?_dropLast, List.length_dropLast]
  by_cases e : k = t
  · subst t
    rw [if_pos rfl, if_pos rfl, if_pos hk, if_pos (by omega : k < m.length),
      if_pos (by omega)]
  · rw [if_neg e, if_neg e]

lemma length_deleteMin (q : BinHeapPQ α) (hne : q.heap.length ≠ 0) :
    q.deleteMin.heap.length = q.heap.length - 1 := by
  by_cases hn1 : 1 < q.heap.length
  · simp only [BinHeapPQ.deleteMin, if_neg hne, if_pos hn1]
    split
    · rw [length_downRestore, List.length_dropLast, length_swap]
    · rw [List.length_dropLast, length_swap]
  · simp only [BinHeapPQ.deleteMin, if_neg hne, if_neg hn1]
    split
    · rw [length_downRestore, List.length_dropLast]
    · rw [List.length_dropLast]

lemma extractF_congr :
    ∀ (f : Nat) (q : BinHeapPQ α), q.heap.length ≤ f →
      extractF f q = extractF q.heap.length q := by
  intro f
  induction f with
  | zero =>
    intro q hf
    rw [show q.heap.length = 0 from by omega]
  | succ f ih =>
    intro q hf
    by_cases h0 : q.heap.length = 0
    · rw [h0]
      simp [extractF, h0]
    · have hlen := length_deleteMin q h0
      have hsplit : q.heap.length = (q.heap.length - 1) + 1 := by omega
      have e1 : extractF (f + 1) q = pAt q.heap 0 :: extractF f q.deleteMin := by
        simp only [extractF, if_neg h0]
      have e2 : extractF q.heap.length q =
          pAt q.heap 0 :: extractF (q.heap.length - 1) q.deleteMin := by
        conv_lhs => rw [hsplit]
        simp only [extractF, if_neg h0]
      rw [e1, e2]
      have e3 := ih q.deleteMin (by omega)
      rw [e3, hlen]

lemma extractPrios_cons (q : BinHeapPQ α) (h0 : q.heap.length ≠ 0) :
    extractPrios q = pAt q.heap 0 :: extractPrios q.deleteMin := by
  have hlen := length_deleteMin q h0
  unfold extractPrios
  have hsplit : q.heap.length = (q.heap.length - 1) + 1 := by omega
  conv_lhs => rw [hsplit]
  simp only [extractF, if_neg h0]
  congr 1
  rw [hlen]

lemma prios_deleteMin (q : BinHeapPQ α) (hne : q.heap.length ≠ 0) :
    (pAt q.heap 0 :: prios q.deleteMin.heap).Perm (prios q.heap) := by
  by_cases hn1 : 1 < q.heap.length
  · have h0 : 0 < q.heap.length := by omega
    have hl : q.heap.length - 1 < q.heap.length := by omega
    have hdel : q.deleteMin.heap =
        if 1 < ((swap q.heap 0 (q.heap.length - 1)).dropLast).length then
          downRestore ((swap q.heap 0 (q.heap.length - 1)).dropLast) 0
        else (swap q.heap 0 (q.heap.length - 1)).dropLast := by
      simp only [BinHeapPQ.deleteMin, if_neg hne, if_pos hn1]
    have hstep : (prios q.deleteMin.heap).Perm
        (prios ((swap q.heap 0 (q.heap.length - 1)).dropLast)) := by
      rw [hdel]
      split
      · exact map_downRestoreF_perm PItem.priority (fun _ _ => rfl) _ _ _
      · exact List.Perm.refl _
    have hml : (prios q.heap).length = q.heap.length := List.length_map _ _
    have hm : prios (swap q.heap 0 (q.heap.length - 1)) =
        ((prios q.heap).set 0 (pAt q.heap (q.heap.length - 1))).set
          (q.heap.length - 1) (pAt q.heap 0) := by
      rw [swap_eq_of_lt q.heap h0 hl]
      unfold prios
      rw [List.map_set, List.map_set]
      have v1 : PItem.priority
          { q.heap.get ⟨q.heap.length - 1, hl⟩ with pos := (q.heap.get ⟨0, h0⟩).pos } =
          pAt q.heap (q.heap.length - 1) := by
        rw [pAt_get q.heap _ hl]
      have v2 : PItem.priority
          { q.heap.get ⟨0, h0⟩ with pos := (q.heap.get ⟨q.heap.length - 1, hl⟩).pos } =
          pAt q.heap 0 := by
        rw [pAt_get q.heap _ h0]
      rw [v1, v2]
    have h2 : prios ((swap q.heap 0 (q.heap.length - 1)).dropLast) =
        (prios q.heap).dropLast.set 0 (pAt q.heap (q.heap.length - 1)) := by
      have hk1 : ((prios q.heap).set 0 (pAt q.heap (q.heap.length - 1))).length - 1 ≤
          q.heap.length - 1 := by
        rw [List.length_set, hml]
      have hk2 : (0 : Nat) < (prios q.heap).length - 1 := by omega
      calc prios ((swap q.heap 0 (q.heap.length - 1)).dropLast)
          = (prios (swap q.heap 0 (q.heap.length - 1))).dropLast := by
            unfold prios
            exact List.map_dropLast _ _
        _ = (((prios q.heap).set 0 (pAt q.heap (q.heap.length - 1))).set
              (q.heap.length - 1) (pAt q.heap 0)).dropLast := by rw [hm]
        _ = ((prios q.heap).set 0 (pAt q.heap (q.heap.length - 1))).dropLast :=
            dropLast_set_last _ _ _ hk1
        _ = (prios q.heap).dropLast.set 0 (pAt q.heap (q.heap.length - 1)) :=
            dropLast_set_lt _ _ _ hk2
    have hd0 : 0 < (prios q.heap).dropLast.length := by
      rw [List.length_dropLast, hml]
      omega
    have hc := cons_set_perm (pAt q.heap (q.heap.length - 1)) (prios q.heap).dropLast 0 hd0
    have hg : (prios q.heap).dropLast.get ⟨0, hd0⟩ = pAt q.heap 0 := by
      rw [List.get_eq_getElem, List.getElem_dropLast]
      unfold prios
      rw [List.getElem_map, ← List.get_eq_getElem q.heap ⟨0, h0⟩, ← pAt_get q.heap 0 h0]
    rw [hg] at hc
    have hmne : prios q.heap ≠ [] := List.ne_nil_of_length_pos (by omega)
    have hgl : (prios q.heap).getLast hmne = pAt q.heap (q.heap.length - 1) := by
      rw [List.getLast_eq_getElem]
      unfold prios
      simp only [List.getElem_map, List.length_map]
      rw [pAt_get q.heap _ hl, List.get_eq_getElem]
    have happ : (prios q.heap).dropLast ++ [pAt q.heap (q.heap.length - 1)] = prios q.heap := by
      conv_rhs => rw [← List.dropLast_append_getLast hmne]
      rw [hgl]
    have hlast : (pAt q.heap (q.heap.length - 1) :: (prios q.heap).dropLast).Perm
        (prios q.heap) := by
      conv_rhs => rw [← happ]
      exact (List.perm_append_singleton _ _).symm
    have core : (pAt q.heap 0 ::
        prios ((swap q.heap 0 (q.heap.length - 1)).dropLast)).Perm (prios q.heap) := by
      rw [h2]
      exact hc.trans hlast
    exact ((hstep.cons (pAt q.heap 0)).trans core)
  · have hn : q.heap.length = 1 := by omega
    obtain ⟨e, he⟩ := List.length_eq_one.mp hn
    have hdel : q.deleteMin.heap = [] := by
      simp [BinHeapPQ.deleteMin, hne, hn1, he]
    rw [hdel, he]
    simp [prios, pAt]

lemma extractPrios_perm (q : BinHeapPQ α) :
    (extractPrios q).Perm (prios q.heap) := by
  suffices h : ∀ (n : Nat) (r : BinHeapPQ α), r.heap.length = n →
      (extractPrios r).Perm (prios r.heap) from h q.heap.length q rfl
  intro n
  induction n using Nat.strong_induction_on with
  | _ n ih =>
    intro r hn
    by_cases h0 : r.heap.length = 0
    · unfold extractPrios
      rw [h0]
      have he : r.heap = [] := List.length_eq_zero.mp h0
      simp [extractF, he, prios]
    · have hlen := length_deleteMin r h0
      rw [extractPrios_cons r h0]
      have hperm := ih (r.heap.length - 1) (by omega) r.deleteMin hlen
      exact (hperm.cons (pAt r.heap 0)).trans (prios_deleteMin r h0)

lemma root_min (l : List (PItem α)) (hord : heapOrd l) :
    ∀ j, j < l.length → pAt l 0 ≤ pAt l j := by
  intro j
  induction j using Nat.strong_induction_on with
  | _ j ih =>
    intro hj
    rcases Nat.eq_zero_or_pos j with rfl | h1
    · exact le_rfl
    · exact le_trans (ih (j / 2) (Nat.div_lt_self h1 one_lt_two) (by omega)) (hord j hj h1)

lemma heapOrd_deleteMin (q : BinHeapPQ α) (hord : heapOrd q.heap) :
    heapOrd q.deleteMin.heap := by
  by_cases h0 : q.heap.length = 0
  · simpa [BinHeapPQ.deleteMin, h0] using hord
  by_cases hn1 : 1 < q.heap.length
  · simp only [BinHeapPQ.deleteMin, if_neg h0, if_pos hn1]
    by_cases h2 : 1 < ((swap q.heap 0 (q.heap.length - 1)).dropLast).length
    · rw [if_pos h2]
      exact downRestore_heapOrd _ _ (by omega) (downPre_root q.heap (by omega) hord)
    · rw [if_neg h2]
      exact heapOrd_small _ (by omega)
  · simp only [BinHeapPQ.deleteMin, if_neg h0, if_neg hn1]
    have hl : q.heap.dropLast.length = 0 := by
      rw [List.length_dropLast]
      omega
    rw [if_neg (by omega)]
    exact heapOrd_small _ (by omega)

lemma prios_get (l : List (PItem α)) {b : Nat} (hb : b ∈ prios l) :
    ∃ j, j < l.length ∧ pAt l j = b := by
  obtain ⟨j, hj, hjb⟩ := List.mem_iff_getElem.mp hb
  have hj2 : j < l.length := by
    have := List.length_map l PItem.priority
    unfold prios at hj
    omega
  refine ⟨j, hj2, ?_⟩
  rw [pAt_get l j hj2]
  rw [← hjb]
  unfold prios
  rw [List.getElem_map, List.get_eq_getElem]

lemma extract_sorted (q : BinHeapPQ α) (hord : heapOrd q.heap) :
    (extractPrios q).Sorted (· ≤ ·) := by
  suffices h : ∀ (n : Nat) (r : BinHeapPQ α), r.heap.length = n → heapOrd r.heap →
      (extractPrios r).Sorted (· ≤ ·) from h q.heap.length q rfl hord
  intro n
  induction n using Nat.strong_induction_on with
  | _ n ih =>
    intro r hn hord'
    by_cases h0 : r.heap.length = 0
    · unfold extractPrios
      rw [h0]
      have he : r.heap = [] := List.length_eq_zero.mp h0
      simp [extractF, he]
    · have hlen := length_deleteMin r h0
      rw [extractPrios_cons r h0, List.sorted_cons]
      constructor
      · intro b hb
        have hb2 : b ∈ prios r.deleteMin.heap := (extractPrios_perm r.deleteMin).mem_iff.mp hb
        have hb3 : b ∈ prios r.heap :=
          (prios_deleteMin r h0).mem_iff.mp (List.mem_cons_of_mem _ hb2)
        obtain ⟨j, hj, hjb⟩ := prios_get r.heap hb3
        rw [← hjb]
        exact root_min r.heap hord' j hj
      · exact ih (r.heap.length - 1) (by omega) r.deleteMin hlen
          (heapOrd_deleteMin r hord')

/-! ### Termination of the unbounded `downRestore` loop -/

lemma downIdx_progress (l : List (PItem α)) (i : Nat) (hne : downIdx l i ≠ i) :
    i < downIdx l i ∧ downIdx l i < l.length := by
  rcases (downIdx_min l i).2.2 with heq | ⟨hm2, hml, _⟩
  · exact absurd heq hne
  · constructor
    · omega
    · exact hml

lemma downRestoreLoop_eq :
    ∀ (f : Nat) (l : List (PItem α)) (i : Nat), l.length + 1 ≤ f + i → 1 ≤ f →
      downRestoreLoop f l i = some (downRestoreF f l i) := by
  intro f
  induction f with
  | zero => intro l i hf h1; omega
  | succ f ih =>
    intro l i hf h1
    by_cases hcond : downIdx l i ≠ i
    · obtain ⟨him, hml⟩ := downIdx_progress l i hcond
      rw [show downRestoreLoop (f + 1) l i =
          downRestoreLoop f (swap l i (downIdx l i)) (downIdx l i) from by
        simp only [downRestoreLoop, if_pos hcond]]
      rw [show downRestoreF (f + 1) l i =
          downRestoreF f (swap l i (downIdx l i)) (downIdx l i) from by
        simp only [downRestoreF, if_pos hcond]]
      exact ih _ _ (by rw [length_swap]; omega) (by omega)
    · rw [show downRestoreLoop (f + 1) l i = some l from by
        simp only [downRestoreLoop, if_neg hcond]]
      rw [show downRestoreF (f + 1) l i = l from by
        simp only [downRestoreF, if_neg hcond]]

lemma downRestoreLoop_complete (l : List (PItem α)) (i : Nat) :
    downRestoreLoop (l.length + 1) l i = some (downRestore l i) :=
  downRestoreLoop_eq (l.length + 1) l i (by omega) (by omega)

/-! ### Handles name a unique record -/

lemma key_unique (l : List (PItem α)) (hnd : (l.map PItem.id).Nodup)
    {e1 e2 : PItem α} (h1 : e1 ∈ l) (h2 : e2 ∈ l) (hid : e1.id = e2.id) :
    e1 = e2 :=
  List.inj_on_of_nodup_map hnd h1 h2 hid

lemma keys_setPriority (l : List (PItem α)) {k : Nat} (p : Nat) {e : PItem α}
    (hget : l[k]? = some e) :
    (setPriority l k p).map (fun x => (x.id, x.priority)) =
      (l.map (fun x => (x.id, x.priority))).set k (e.id, p) := by
  simp only [setPriority, hget]
  rw [List.map_set]

lemma mem_set_self (m : List β) (k : Nat) (x : β) (hk : k < m.length) :
    x ∈ m.set k x := by
  rw [List.mem_iff_getElem]
  refine ⟨k, by rw [List.length_set]; exact hk, ?_⟩
  rw [List.getElem_set, if_pos rfl]

lemma nodup_ids_setPriority (l : List (PItem α)) (k p : Nat)
    (hnd : (l.map PItem.id).Nodup) : ((setPriority l k p).map PItem.id).Nodup := by
  rw [ids_setPriority]
  exact hnd

lemma ids_eq_keys_fst (l : List (PItem α)) :
    (l.map (fun x => (x.id, x.priority))).map Prod.fst = l.map PItem.id := by
  rw [List.map_map]
  rfl

lemma priority_written (l : List (PItem α)) (hnd : (l.map PItem.id).Nodup)
    {k : Nat} {pi : PItem α} (hget : l[k]? = some pi) (p : Nat)
    (l' : List (PItem α))
    (hperm : (l'.map (fun x => (x.id, x.priority))).Perm
      ((setPriority l k p).map (fun x => (x.id, x.priority)))) :
    ∃ pi', List.find? (fun e => e.id = pi.id) l' = some pi' ∧ pi'.priority = p := by
  have hk : k < l.length := by
    by_contra hcon
    rw [List.getElem?_eq_none (by omega)] at hget
    exact Option.noConfusion hget
  have hnd' : (l'.map PItem.id).Nodup := by
    have hfst := hperm.map Prod.fst
    rw [ids_eq_keys_fst, ids_eq_keys_fst, ids_setPriority] at hfst
    exact hfst.nodup_iff.mpr hnd
  have hmemk : (pi.id, p) ∈ (setPriority l k p).map (fun x => (x.id, x.priority)) := by
    rw [keys_setPriority l p hget]
    exact mem_set_self _ k _ (by rw [List.length_map]; exact hk)
  have hmem' : (pi.id, p) ∈ l'.map (fun x => (x.id, x.priority)) :=
    hperm.mem_iff.mpr hmemk
  obtain ⟨a, ha, hka⟩ := List.mem_map.mp hmem'
  have haid : a.id = pi.id := congrArg Prod.fst hka
  have hap : a.priority = p := congrArg Prod.snd hka
  have hsome : (List.find? (fun e => e.id = pi.id) l').isSome :=
    List.find?_isSome.mpr ⟨a, ha, by simp [haid]⟩
  obtain ⟨pi', hpi'⟩ := Option.isSome_iff_exists.mp hsome
  refine ⟨pi', hpi', ?_⟩
  have hpid : pi'.id = pi.id := by
    have := List.find?_some hpi'
    simpa using this
  have hmm : pi' ∈ l' := List.mem_of_find?_eq_some hpi'
  have : pi' = a := key_unique l' hnd' hmm ha (by rw [hpid, haid])
  rw [this, hap]

/-! ### The claims -/

/-- C1 (counterexample): the heap-order invariant in the specification's
0-indexed form `priority[i] ≥ priority[(i−1)/2]` is violated on a state
reached from a fresh queue of capacity 7 by seven plain `emplace` calls:
there `priority[6] = 3 < 10 = priority[2]` although `(6−1)/2 = 2`. -/
theorem C1_spec_heap_order_fails :
    ¬ specHeapOrd (runOps 7
      [Op.emplace 0 (), Op.emplace 1 (), Op.emplace 10 (), Op.emplace 2 (),
       Op.emplace 11 (), Op.emplace 11 (), Op.emplace 3 ()]).heap := by
  decide

/-- C1 (amended): after every public operation (emplace, deleteMin, decrease,
increase) on a queue reached by any operation sequence from a fresh queue, the
heap order the code maintains holds with the code's parent formula:
`priority[i] ≥ priority[i/2]` for every `i` in `[1, n)`. -/
theorem C1_heap_order_code_form (cap : Nat) (ops : List (Op α)) :
    heapOrd (runOps cap ops).heap :=
  (PQInv_runOps cap ops).1

/-- C1 (witness): the code-form heap order on a concrete reachable state. -/
theorem C1_heap_order_witness :
    heapOrd (runOps 7
      [Op.emplace 0 (), Op.emplace 1 (), Op.emplace 10 (), Op.emplace 2 (),
       Op.emplace 11 (), Op.emplace 11 (), Op.emplace 3 ()]).heap :=
  C1_heap_order_code_form 7 _

/-- C2: on every queue reached by any operation sequence, draining via
`min` / `deleteMin` yields the stored priorities in non-decreasing order and
is a permutation of the stored multiset; in particular inserting
(3,"c"),(2,"b"),(1,"a") and extracting three times yields "a","b","c". -/
theorem C2_extraction_sorted :
    (∀ (γ : Type) (cap : Nat) (ops : List (Op γ)),
      (extractPrios (runOps cap ops)).Sorted (· ≤ ·) ∧
      (extractPrios (runOps cap ops)).Perm (prios (runOps cap ops).heap)) ∧
    ((runOps 3 [Op.emplace 3 "c", Op.emplace 2 "b", Op.emplace 1 "a"]).min =
        Except.ok "a" ∧
      (runOps 3 [Op.emplace 3 "c", Op.emplace 2 "b",
        Op.emplace 1 "a"]).deleteMin.min = Except.ok "b" ∧
      (runOps 3 [Op.emplace 3 "c", Op.emplace 2 "b",
        Op.emplace 1 "a"]).deleteMin.deleteMin.min = Except.ok "c" ∧
      (runOps 3 [Op.emplace 3 "c", Op.emplace 2 "b",
        Op.emplace 1 "a"]).deleteMin.deleteMin.deleteMin.heap = []) := by
  refine ⟨fun γ cap ops => ⟨?_, extractPrios_perm _⟩, rfl, rfl, rfl, rfl⟩
  exact extract_sorted _ (PQInv_runOps cap ops).1

/-- C2 (witness): sorted extraction on a concrete queue. -/
theorem C2_extraction_witness :
    (extractPrios (runOps 2 ([] : List (Op Unit)))).Sorted (· ≤ ·) :=
  (C2_extraction_sorted.1 Unit 2 []).1

/-- C3 (counterexample): the code's sift operations do not compute the same
arrays as the specification's procedures with parent `(i−1)/2` and children
`2i+1`, `2i+2`, even on inputs whose remainder is a valid heap in both
readings: sift-up at index 2 of priorities `[1, 2, 0]` and sift-down at the
root of priorities `[5, 1, 2]` give different results. -/
theorem C3_spec_sift_differs :
    upRestore [(⟨1, (), 0, 0⟩ : PItem Unit), ⟨2, (), 1, 1⟩, ⟨0, (), 2, 2⟩] 2 ≠
      specSiftUp [⟨1, (), 0, 0⟩, ⟨2, (), 1, 1⟩, ⟨0, (), 2, 2⟩] 2 ∧
    downRestore [(⟨5, (), 0, 0⟩ : PItem Unit), ⟨1, (), 1, 1⟩, ⟨2, (), 2, 2⟩] 0 ≠
      specSiftDown [⟨5, (), 0, 0⟩, ⟨1, (), 1, 1⟩, ⟨2, (), 2, 2⟩] 0 := by
  constructor
  · decide
  · decide

lemma upF_eq_corrected :
    ∀ (f : Nat) (l : List (PItem α)) (i : Nat),
      upRestoreF f l i = specSiftUpCorrectedF f l i := by
  intro f
  induction f with
  | zero => intro l i; rfl
  | succ f ih =>
    intro l i
    unfold upRestoreF specSiftUpCorrectedF
    split
    · exact ih _ _
    · rfl

lemma downIdx_eq_corrected (l : List (PItem α)) (i : Nat) :
    downIdx l i = specDownIdxCorrected l i := rfl

lemma downF_eq_corrected :
    ∀ (f : Nat) (l : List (PItem α)) (i : Nat),
      downRestoreF f l i = specSiftDownCorrectedF f l i := by
  intro f
  induction f with
  | zero => intro l i; rfl
  | succ f ih =>
    intro l i
    unfold downRestoreF specSiftDownCorrectedF
    rw [← downIdx_eq_corrected]
    split
    · exact ih _ _
    · rfl

/-- C3 (amended): the code's index arithmetic is parent `i/2` and children
`2i`, `2i+1`; with those formulas substituted, the code's `upRestore` and
`downRestore` compute exactly the arrays of the specification's sift
procedures, for every heap and every starting index. -/
theorem C3_sift_equivalence (l : List (PItem α)) (i : Nat) :
    upRestore l i = specSiftUpCorrected l i ∧
    downRestore l i = specSiftDownCorrected l i :=
  ⟨upF_eq_corrected i l i, downF_eq_corrected (l.length + 1) l i⟩

/-- C3 (witness): the equivalence at a concrete heap and index. -/
theorem C3_sift_equivalence_witness :
    downRestore [(⟨5, (), 0, 1⟩ : PItem Unit), ⟨1, (), 1, 2⟩] 0 =
      specSiftDownCorrected [⟨5, (), 0, 1⟩, ⟨1, (), 1, 2⟩] 0 :=
  (C3_sift_equivalence _ 0).2

/-- C4: for a live handle, `decrease` with a value not below the current
priority leaves the queue completely unchanged, and otherwise writes the new
priority to that very entry and sifts up from its recorded position;
`increase` with a value not above the current priority leaves the queue
completely unchanged, and otherwise writes the new priority and sifts down
from the recorded position.  The two operations never swap their semantics on
a value from the wrong side. -/
theorem C4_priority_change (q : BinHeapPQ α) (p h : Nat) (pi : PItem α)
    (H : PQInv q) (hf : q.findByHandle h = some pi) :
    (pi.priority ≤ p → q.decrease p h = q) ∧
    (p < pi.priority →
      q.decrease p h = ⟨q.maxSize, upRestore (setPriority q.heap pi.pos p) pi.pos, q.nextId⟩ ∧
      ∃ pi', (q.decrease p h).findByHandle h = some pi' ∧ pi'.priority = p) ∧
    (p ≤ pi.priority → q.increase p h = q) ∧
    (pi.priority < p →
      q.increase p h = ⟨q.maxSize, downRestore (setPriority q.heap pi.pos p) pi.pos, q.nextId⟩ ∧
      ∃ pi', (q.increase p h).findByHandle h = some pi' ∧ pi'.priority = p) := by
  obtain ⟨hord, hpos, hcap, hnd, hbd⟩ := H
  have hmem : pi ∈ q.heap := List.mem_of_find?_eq_some hf
  obtain ⟨hk, hget⟩ := posOk_lookup q.heap hpos hmem
  have hh : pi.id = h := by simpa using List.find?_some hf
  refine ⟨?_, ?_, ?_, ?_⟩
  · intro hge
    simp only [BinHeapPQ.decrease, hf, if_pos (show p ≥ pi.priority from hge)]
  · intro hlt
    have key : q.decrease p h =
        ⟨q.maxSize, upRestore (setPriority q.heap pi.pos p) pi.pos, q.nextId⟩ := by
      simp only [BinHeapPQ.decrease, hf, if_neg (by omega : ¬ p ≥ pi.priority)]
    refine ⟨key, ?_⟩
    have hperm : ((q.decrease p h).heap.map (fun x => (x.id, x.priority))).Perm
        ((setPriority q.heap pi.pos p).map (fun x => (x.id, x.priority))) := by
      rw [key]
      exact map_upRestoreF_perm (fun x => (x.id, x.priority)) (fun _ _ => rfl) _ _ _
    obtain ⟨pi', hfind, hp⟩ := priority_written q.heap hnd hget p _ hperm
    rw [hh] at hfind
    exact ⟨pi', hfind, hp⟩
  · intro hle
    simp only [BinHeapPQ.increase, hf, if_pos hle]
  · intro hlt
    have key : q.increase p h =
        ⟨q.maxSize, downRestore (setPriority q.heap pi.pos p) pi.pos, q.nextId⟩ := by
      simp only [BinHeapPQ.increase, hf, if_neg (by omega : ¬ p ≤ pi.priority)]
    refine ⟨key, ?_⟩
    have hperm : ((q.increase p h).heap.map (fun x => (x.id, x.priority))).Perm
        ((setPriority q.heap pi.pos p).map (fun x => (x.id, x.priority))) := by
      rw [key]
      exact map_downRestoreF_perm (fun x => (x.id, x.priority)) (fun _ _ => rfl) _ _ _
    obtain ⟨pi', hfind, hp⟩ := priority_written q.heap hnd hget p _ hperm
    rw [hh] at hfind
    exact ⟨pi', hfind, hp⟩

/-- C4 (witness): decreasing with a larger value on a concrete singleton
queue is a no-op. -/
theorem C4_priority_change_witness :
    BinHeapPQ.decrease (runOps 3 [Op.emplace 5 ()]) 7 0 = runOps 3 [Op.emplace 5 ()] :=
  (C4_priority_change (runOps 3 [Op.emplace 5 ()]) 7 0 ⟨5, (), 0, 0⟩
    (by decide) (by decide)).1 (by decide)

/-- C5 (counterexample): `deleteMin` on an empty queue does not fail with
`Empty`: it returns normally (its return type carries no error and no removed
value) and leaves the state unchanged. -/
theorem C5_deleteMin_empty_no_failure :
    BinHeapPQ.deleteMin (BinHeapPQ.new 2 : BinHeapPQ Unit) = BinHeapPQ.new 2 := by
  decide

/-- C5 (amended): on a non-empty queue `deleteMin` swaps root and the entry
at `n−1` (when `n > 1`), drops the last slot, decrements `n`, and sifts down
from index 0 when more than one entry remains — so afterwards the stored
priorities are the old ones minus one copy of the old root — but it returns
no value to the caller; on an empty queue it returns normally with the state
unchanged instead of failing with `Empty`. -/
theorem C5_deleteMin_behavior (q : BinHeapPQ α) :
    (q.heap.length ≠ 0 →
      q.deleteMin = ⟨q.maxSize,
        (if 1 < ((if 1 < q.heap.length then
              swap q.heap 0 (q.heap.length - 1) else q.heap).dropLast).length then
          downRestore ((if 1 < q.heap.length then
              swap q.heap 0 (q.heap.length - 1) else q.heap).dropLast) 0
        else (if 1 < q.heap.length then
              swap q.heap 0 (q.heap.length - 1) else q.heap).dropLast), q.nextId⟩ ∧
      q.deleteMin.heap.length = q.heap.length - 1 ∧
      (pAt q.heap 0 :: prios q.deleteMin.heap).Perm (prios q.heap)) ∧
    (q.heap.length = 0 → q.deleteMin = q) := by
  constructor
  · intro hne
    refine ⟨?_, length_deleteMin q hne, prios_deleteMin q hne⟩
    simp only [BinHeapPQ.deleteMin, if_neg hne]
  · intro h0
    simp only [BinHeapPQ.deleteMin, if_pos h0]

/-- C5 (witness): the size decrement on a concrete one-element queue. -/
theorem C5_deleteMin_behavior_witness :
    (BinHeapPQ.deleteMin (runOps 2 [Op.emplace 4 ()])).heap.length =
      (runOps 2 [Op.emplace 4 ()]).heap.length - 1 :=
  ((C5_deleteMin_behavior (runOps 2 [Op.emplace 4 ()])).1 (by decide)).2.1

/-- C6: `emplace` on a full fixed-capacity queue (`n = capacity`, which on
reachable states is exactly the code's `n ≥ capacity` test) reports failure
by returning a null handle (`none`) and leaves the state unchanged; when not
full it appends the new entry at index `n` with `pos = n`, increments `n`,
sifts up from `n−1`, and returns a fresh handle to the new entry. -/
theorem C6_emplace (q : BinHeapPQ α) (p : Nat) (x : α) (H : PQInv q) :
    (q.heap.length = q.maxSize → q.emplace p x = (q, none)) ∧
    (q.heap.length ≠ q.maxSize →
      q.emplace p x = (⟨q.maxSize,
        upRestore (q.heap ++ [⟨p, x, q.heap.length, q.nextId⟩]) q.heap.length,
        q.nextId + 1⟩, some q.nextId) ∧
      (q.emplace p x).1.heap.length = q.heap.length + 1) := by
  obtain ⟨hord, hpos, hcap, hids⟩ := H
  constructor
  · intro heq
    simp only [BinHeapPQ.emplace, if_pos (show q.heap.length ≥ q.maxSize by omega)]
  · intro hne
    have key : q.emplace p x = (⟨q.maxSize,
        upRestore (q.heap ++ [⟨p, x, q.heap.length, q.nextId⟩]) q.heap.length,
        q.nextId + 1⟩, some q.nextId) := by
      simp only [BinHeapPQ.emplace, if_neg (show ¬ q.heap.length ≥ q.maxSize by omega),
        List.length_append, List.length_singleton, Nat.add_sub_cancel]
    refine ⟨key, ?_⟩
    rw [key]
    dsimp only
    rw [length_upRestore, List.length_append, List.length_singleton]

/-- C6 (witness): a fifth insert into a full queue of capacity 1 fails with a
null handle and leaves the queue unchanged. -/
theorem C6_emplace_witness :
    BinHeapPQ.emplace (runOps 1 [Op.emplace 2 ()]) 3 () =
      (runOps 1 [Op.emplace 2 ()], none) :=
  (C6_emplace (runOps 1 [Op.emplace 2 ()]) 3 () (by decide)).1 (by decide)

/-- C7: `min` on a non-empty queue returns a copy of the value stored at
index 0 (it is a pure observer, so the heap is untouched by construction),
and it fails — with the exception string the source throws — exactly when the
queue is empty. -/
theorem C7_min (q : BinHeapPQ α) :
    (∀ e, q.heap[0]? = some e → q.min = Except.ok e.item) ∧
    ((∃ s, q.min = Except.error s) ↔ q.heap.length = 0) ∧
    (q.heap.length = 0 → q.min = Except.error "Empty priority queue!") := by
  rcases he : q.heap with _ | ⟨e, t⟩
  · refine ⟨?_, ?_, ?_⟩
    · intro e h
      simp at h
    · simp [BinHeapPQ.min, he]
    · intro h0
      simp [BinHeapPQ.min, he]
  · refine ⟨?_, ?_, ?_⟩
    · intro e' h
      have hee : e = e' := by simpa using h
      simp [BinHeapPQ.min, he, hee]
    · simp [BinHeapPQ.min, he]
    · intro h0
      simp at h0

/-- C7 (witness): `min` on a concrete empty queue fails with the source's
exception string. -/
theorem C7_min_witness :
    BinHeapPQ.min (BinHeapPQ.new 1 : BinHeapPQ Unit) =
      Except.error "Empty priority queue!" :=
  (C7_min (BinHeapPQ.new 1 : BinHeapPQ Unit)).2.2 (by decide)

/-- C8: position consistency holds after every operation: the entry stored at
heap index `i` records `pos = i`, hence for every live entry the array slot
named by its `pos` field holds exactly that entry. -/
theorem C8_position_consistency (cap : Nat) (ops : List (Op α)) :
    posOk (runOps cap ops).heap ∧
    ∀ e ∈ (runOps cap ops).heap, (runOps cap ops).heap[e.pos]? = some e := by
  refine ⟨(PQInv_runOps cap ops).2.1, fun e he => ?_⟩
  exact (posOk_lookup _ (PQInv_runOps cap ops).2.1 he).2

/-- C8 (witness): position consistency on a concrete reachable state. -/
theorem C8_position_consistency_witness :
    posOk (runOps 2 [Op.emplace 3 (), Op.emplace 1 ()]).heap :=
  (C8_position_consistency 2 [Op.emplace 3 (), Op.emplace 1 ()]).1

/-- C9: `downRestore` terminates although its loop condition `i >= 0` on an
unsigned index is always true: whenever the loop does not break, the index
strictly increases yet stays below `n`, so the loop always breaks within
`n + 1` rounds — the bounded observation of the unbounded loop returns
(`some`) the computed heap. -/
theorem C9_downRestore_terminates (l : List (PItem α)) (i : Nat) :
    (downIdx l i ≠ i → i < downIdx l i ∧ downIdx l i < l.length) ∧
    downRestoreLoop (l.length + 1) l i = some (downRestore l i) :=
  ⟨downIdx_progress l i, downRestoreLoop_complete l i⟩

/-- C9 (witness): progress and completion on a concrete two-entry heap whose
root must sink. -/
theorem C9_downRestore_terminates_witness :
    0 < downIdx [(⟨5, (), 0, 0⟩ : PItem Unit), ⟨1, (), 1, 1⟩] 0 ∧
    downIdx [(⟨5, (), 0, 0⟩ : PItem Unit), ⟨1, (), 1, 1⟩] 0 <
      [(⟨5, (), 0, 0⟩ : PItem Unit), ⟨1, (), 1, 1⟩].length :=
  (C9_downRestore_terminates [⟨5, (), 0, 0⟩, ⟨1, (), 1, 1⟩] 0).1 (by decide)

/-- C10: `deleteMin` on an empty queue (`n = 0`) is a silent no-op: it
returns normally, reports nothing, and leaves the whole state (capacity,
size, entries, allocation counter) unchanged. -/
theorem C10_deleteMin_empty_noop (q : BinHeapPQ α) (h : q.heap.length = 0) :
    q.deleteMin = q := by
  simp only [BinHeapPQ.deleteMin, if_pos h]

/-- C10 (witness): the silent no-op on a concrete empty queue. -/
theorem C10_deleteMin_empty_noop_witness :
    BinHeapPQ.deleteMin (BinHeapPQ.new 1 : BinHeapPQ Unit) = BinHeapPQ.new 1 :=
  C10_deleteMin_empty_noop (BinHeapPQ.new 1) (by decide)
